import Mathlib

/-!
Shallow embedding of the vlog package: the level registry (levelVars,
newVar, parseLevel, parseFlag, setLevels, printLevelVars) and the
size-rotated sink (rotateLogger).  Strings are modelled as lists of
characters; Go compares and lowercases bytes, and every input considered
here is ASCII, where byte-wise and character-wise operations agree.
Logging of diagnostic messages is modelled as a counter (nlogs) or a tag
(RegLog); panics in parseFlag are modelled as Except.error values.
-/

/-- Severity levels of vlog: the Go constants v2 = -2, v1 = -1, info = 0,
err = 1 of type Level int32.  The zero value (Go default) is info. -/
inductive Level where
  | v2
  | v1
  | info
  | err
deriving DecidableEq, Repr

/-- Association list standing in for a Go map from string to Level.
The Go code only ever reads maps by key lookup or by iterating over the
sorted list of keys, so insertion order is irrelevant to its behaviour. -/
abbrev LMap : Type := List (List Char × Level)

/-- Go map assignment m[k] = v: replace the binding of k when present,
otherwise add one. -/
def insertA (k : List Char) (v : Level) : LMap → LMap
  | [] => [(k, v)]
  | (k2, w) :: rest => if k2 = k then (k, v) :: rest else (k2, w) :: insertA k v rest

/-- Go map read m[k] with presence flag. -/
def lookupA (k : List Char) : LMap → Option Level
  | [] => none
  | (k2, v) :: rest => if k2 = k then some v else lookupA k rest

/-- Keys of the map, in representation order (the Go code sorts them
before use, so this order never matters). -/
def keysA (m : LMap) : List (List Char) := m.map Prod.fst

/-- Lowercasing of a string, as strings.ToLower does on ASCII input. -/
def toLowerList (s : List Char) : List Char := s.map Char.toLower

/-- Go strings.HasSuffix. -/
def hasSfx (s sfx : List Char) : Bool := s.drop (s.length - sfx.length) == sfx

/-- Go strings.HasPrefix. -/
def hasPfx (s p : List Char) : Bool := s.take p.length == p

/-- Go strings.TrimRight(s, slash): remove every trailing slash. -/
def trimSlashR (s : List Char) : List Char := (s.reverse.dropWhile (fun c => c = '/')).reverse

/-- Splitting a rule at its first equals sign, as the Index/slice pair in
parseFlag does; none models the no-equals panic input. -/
def splitEq (r : List Char) : Option (List Char × List Char) :=
  if r.contains '=' = true then
    some (r.takeWhile (fun c => c ≠ '='), (r.dropWhile (fun c => c ≠ '=')).tail)
  else none

/-- Recognized level tokens of parseLevel, after lowercasing. -/
def parseLevelCore (s : List Char) : Option Level :=
  if s = "2".toList ∨ s = "v2".toList then some Level.v2
  else if s = "1".toList ∨ s = "v1".toList then some Level.v1
  else if s = "i".toList ∨ s = "info".toList then some Level.info
  else if s = "e".toList ∨ s = "err".toList then some Level.err
  else none

/-- Go parseLevel: an unrecognized token logs one diagnostic (the second
component counts logged diagnostics) and falls back to info. -/
def parseLevelD (lvs : List Char) : Level × Nat :=
  match parseLevelCore (toLowerList lvs) with
  | some l => (l, 0)
  | none => (Level.info, 1)

/-- Panics of parseFlag, as error values: missing level separator,
several wildcards, and a wildcard not in trailing position. -/
inductive PErr where
  | noLevel
  | multiStar
  | starMiddle
deriving DecidableEq, Repr

/-- Parser state of parseFlag: the exact-rule map, the normalized
prefix-rule map, and the number of diagnostics logged so far. -/
structure PState where
  exactm : LMap
  pfxm : LMap
  nlogs : Nat
deriving DecidableEq, Repr

/-- One iteration of the parseFlag loop on a single k=v rule. -/
def parseOneRule (st : PState) (r : List Char) : Except PErr PState :=
  match splitEq r with
  | none => Except.error PErr.noLevel
  | some (k0, v) =>
    let lvd := parseLevelD v
    let k1 := toLowerList k0
    if k1 = ['*'] ∨ hasSfx k1 ['/', '*'] = true then
      let k2 := k1.dropLast
      if k2.contains '*' = true then Except.error PErr.multiStar
      else Except.ok { st with pfxm := insertA (trimSlashR k2 ++ ['/']) lvd.1 st.pfxm,
                               nlogs := st.nlogs + lvd.2 }
    else if k1.contains '*' = true then Except.error PErr.starMiddle
    else Except.ok { st with exactm := insertA (trimSlashR k1) lvd.1 st.exactm,
                             nlogs := st.nlogs + lvd.2 }

/-- The parseFlag loop over the comma-separated rules. -/
def parseRules (st : PState) : List (List Char) → Except PErr PState
  | [] => Except.ok st
  | r :: rs =>
    match parseOneRule st r with
    | Except.error e => Except.error e
    | Except.ok st2 => parseRules st2 rs

/-- Plain split on commas. -/
def splitComma : List Char → List (List Char)
  | [] => [[]]
  | c :: t =>
    if c = ',' then [] :: splitComma t
    else
      match splitComma t with
      | [] => [[c]]
      | k :: ks => (c :: k) :: ks

/-- Drop a final empty segment, matching the manual scanning loop of
parseFlag, which never produces a rule for a trailing comma and produces
no rule at all for the empty string. -/
def dropTrailingEmpty : List (List Char) → List (List Char)
  | [] => []
  | [x] => if x = [] then [] else [x]
  | x :: y :: xs => x :: dropTrailingEmpty (y :: xs)

/-- The comma-scanning loop of parseFlag, as a list of rule strings. -/
def splitRules (s : List Char) : List (List Char) := dropTrailingEmpty (splitComma s)

/-- Go parseFlag: compile a configuration string into exact and prefix
rule maps, or fail like the panics do. -/
def parseFlag (value : List Char) : Except PErr PState :=
  parseRules ⟨[], [], 0⟩ (splitRules value)

/-- Lexicographic (byte-wise) string ordering used by sort.Strings,
as a less-or-equal test. -/
def leStr : List Char → List Char → Bool
  | [], _ => true
  | _ :: _, [] => false
  | a :: as, b :: bs =>
    if a.toNat < b.toNat then true
    else if b.toNat < a.toNat then false
    else leStr as bs

/-- Ascending lexicographic sort of the prefix keys, as sort.Strings
produces (the order is total and the keys distinct, so the sorted list
is unique no matter the algorithm). -/
def sortStrings (l : List (List Char)) : List (List Char) :=
  List.insertionSort (fun a b => leStr a b = true) l

/-- The per-cell prefix match of setLevels:
Name == k[:len(k)-1] or HasPrefix(Name, k). -/
def pfxMatches (n k : List Char) : Bool := (n == k.dropLast) || hasPfx n k

/-- The inner loop of setLevels scanning sorted prefixes downward from
index i-1 to 0, stopping at the first match. -/
def scanFrom (ps : List (List Char)) (n : List Char) : Nat → Option (List Char)
  | 0 => none
  | i + 1 =>
    match ps.get? i with
    | some k => if pfxMatches n k = true then some k else scanFrom ps n i
    | none => scanFrom ps n i

/-- Downward scan over the whole sorted prefix list. -/
def scanPfx (ps : List (List Char)) (n : List Char) : Option (List Char) :=
  scanFrom ps n ps.length

/-- A registered level variable: name, source file (diagnostic only) and
current level. -/
structure LevelVar where
  name : List Char
  file : List Char
  level : Level
deriving DecidableEq, Repr

/-- The registry levelVars: slot 0 is the default cell, whose name is
always the empty string, modelled by the root field; the remaining slots
are the cells, in registration order. -/
structure Registry where
  root : Level
  cells : List LevelVar
deriving DecidableEq, Repr

/-- The initial registry: only the default cell, at the Level zero value
info. -/
def emptyRegistry : Registry := ⟨Level.info, []⟩

/-- Prefix pass of setLevels for one cell: take the level of the first
matching prefix in the downward scan, else keep the cell.  Absent keys
read as the Go zero value info; the scan only ever returns present
keys. -/
def applyPfx (pm : LMap) (ps : List (List Char)) (lv : LevelVar) : LevelVar :=
  match scanPfx ps lv.name with
  | some k => { lv with level := (lookupA k pm).getD Level.info }
  | none => lv

/-- Exact pass of setLevels for one cell. -/
def applyExact (em : LMap) (lv : LevelVar) : LevelVar :=
  match lookupA lv.name em with
  | some i => { lv with level := i }
  | none => lv

/-- Go setLevels: parse the rules, set the default from the bare
wildcard if present, reset every cell to the default, apply prefix rules
in descending sorted order with first match winning, then apply exact
rules.  A parse panic surfaces as an error. -/
def setLevels (value : List Char) (reg : Registry) : Except PErr Registry :=
  match parseFlag value with
  | Except.error e => Except.error e
  | Except.ok st =>
    let root1 :=
      match lookupA ['/'] st.pfxm with
      | some v => v
      | none => reg.root
    let cells1 := reg.cells.map fun lv => { lv with level := root1 }
    let cells2 :=
      if st.pfxm = [] then cells1
      else cells1.map (applyPfx st.pfxm (sortStrings (keysA st.pfxm)))
    let cells3 := cells2.map (applyExact st.exactm)
    Except.ok { root := root1, cells := cells3 }

/-- Diagnostics of newVar: nothing, the empty-name message, or the
duplicate-name message. -/
inductive RegLog where
  | quiet
  | badName
  | dupName
deriving DecidableEq, Repr

/-- Index of the first cell with the given name.  The Go loop also
visits slot 0, whose name is the empty string; newVar only reaches the
loop with a nonempty name, which can never match slot 0. -/
def findCell (name : List Char) : List LevelVar → Option Nat
  | [] => none
  | lv :: rest =>
    if lv.name = name then some 0 else (findCell name rest).map (· + 1)

/-- Go newVar: handles are indices into levelVars, 0 being the default
cell.  An empty name yields the default handle; a duplicate name yields
the existing cell's handle; otherwise a cell is appended with the Level
zero value info. -/
def newVar (name fn : List Char) (reg : Registry) : Nat × Registry × RegLog :=
  if name = [] then (0, reg, RegLog.badName)
  else
    match findCell name reg.cells with
    | some i => (i + 1, reg, RegLog.dupName)
    | none =>
      (reg.cells.length + 1,
       { reg with cells := reg.cells ++ [⟨name, fn, Level.info⟩] },
       RegLog.quiet)

/-- Reading through a handle, as dereferencing the returned pointer. -/
def getLevelAt (reg : Registry) (h : Nat) : Option Level :=
  match h with
  | 0 => some reg.root
  | i + 1 => (reg.cells.get? i).map (·.level)

/-- Helper: store a level into the cell at a list index. -/
def setAt : List LevelVar → Nat → Level → List LevelVar
  | [], _, _ => []
  | lv :: rest, 0, l => { lv with level := l } :: rest
  | lv :: rest, i + 1, l => lv :: setAt rest i l

/-- Writing through a handle, as the atomic store of Vset or a direct
assignment. -/
def setLevelAt (reg : Registry) (h : Nat) (l : Level) : Registry :=
  match h with
  | 0 => { reg with root := l }
  | i + 1 => { reg with cells := setAt reg.cells i l }

/-- Modelled from the spec: the stringer-generated Level.String method
(file level_string.go is produced by go generate and absent from the
sources); each value prints as its constant name, as the Export grammar
in the spec and the expected strings of TestSetLevels show. -/
def levelString : Level → List Char
  | Level.v2 => "v2".toList
  | Level.v1 => "v1".toList
  | Level.info => "info".toList
  | Level.err => "err".toList

/-- Rule string a cell contributes to printLevelVars. -/
def ruleStr (lv : LevelVar) : List Char := lv.name ++ '=' :: levelString lv.level

/-- Go printLevelVars, the Export of the spec: the default as a bare
wildcard rule followed by one name=level rule per cell, in registration
order. -/
def printLevelVars (reg : Registry) : List Char :=
  '*' :: '=' :: levelString reg.root ++
    (reg.cells.map fun lv => ',' :: ruleStr lv).flatten

/-- State of rotateLogger: byte counter of the current file, next file
sequence number, and the files written so far, most recent first, each a
list of logged lines.  Byte arithmetic uses Nat; the Go counters are
int64-range and never near overflow in the behaviours considered. -/
structure RState where
  nbytes : Nat
  nextID : Nat
  files : List (List String)
deriving DecidableEq, Repr

/-- The fixed per-record overhead logPrefixSize added for the log-line
header. -/
def logPrefixSize : Nat := 50

/-- Go rotateLogger.rotate: close the current file, open the next one
(modelled as pushing a fresh empty file), reset the byte counter, and
advance the sequence number. -/
def rlRotate (st : RState) : RState :=
  { nbytes := 0, nextID := st.nextID + 1, files := [] :: st.files }

/-- Append a line to the current file. -/
def writeLine (st : RState) (s : String) : RState :=
  { st with
    files :=
      match st.files with
      | [] => [[s]]
      | f :: fs => (f ++ [s]) :: fs }

/-- Go newRotateLogger: fresh state rotated once, so one open file and
sequence number 1 as the next to use. -/
def newRotateLogger : RState := rlRotate ⟨0, 0, []⟩

/-- Go rotateLogger.Log: the retry loop.  Each iteration adds the
incoming record size to the counter; when the counter was already
positive and now exceeds the limit it rotates and retries, otherwise it
writes the line and stops. -/
def rlog (limit : Nat) (st : RState) (s : String) : RState :=
  if h : 0 < st.nbytes ∧ limit < st.nbytes + logPrefixSize + s.length then
    rlog limit (rlRotate st) s
  else
    writeLine { st with nbytes := st.nbytes + logPrefixSize + s.length } s
termination_by st.nbytes
decreasing_by
  simp only [rlRotate]
  exact h.1

/-- Number of iterations the rlog retry loop performs. -/
def rlogIters (limit : Nat) (st : RState) (s : String) : Nat :=
  if h : 0 < st.nbytes ∧ limit < st.nbytes + logPrefixSize + s.length then
    1 + rlogIters limit (rlRotate st) s
  else 1
termination_by st.nbytes
decreasing_by
  simp only [rlRotate]
  exact h.1

/-- Names that survive the key normalization of parseFlag unchanged:
nonempty, free of the comma, equals and wildcard metacharacters, already
lowercase, and with no trailing slash. -/
def goodName (n : List Char) : Prop :=
  n ≠ [] ∧ n.contains ',' = false ∧ n.contains '=' = false ∧
    n.contains '*' = false ∧ toLowerList n = n ∧ trimSlashR n = n

instance (n : List Char) : Decidable (goodName n) := by
  unfold goodName
  infer_instance

/-- Decidable equality for Except values, used to evaluate concrete runs. -/
instance {ε α : Type} [DecidableEq ε] [DecidableEq α] : DecidableEq (Except ε α) := fun a b =>
  match a, b with
  | Except.ok x, Except.ok y =>
    if h : x = y then Decidable.isTrue (by rw [h])
    else Decidable.isFalse (by intro hc; cases hc; exact h rfl)
  | Except.error x, Except.error y =>
    if h : x = y then Decidable.isTrue (by rw [h])
    else Decidable.isFalse (by intro hc; cases hc; exact h rfl)
  | Except.ok _, Except.error _ => Decidable.isFalse (by intro hc; cases hc)
  | Except.error _, Except.ok _ => Decidable.isFalse (by intro hc; cases hc)

/-- Number of wildcard characters in a key. -/
def countStars (k : List Char) : Nat := (k.filter (fun c => c = '*')).length

/-- Malformed rule, in the words of the claim: no equals sign, or a
wildcard appearing other than as a trailing slash-star or a bare star,
or multiple wildcards. -/
def MalformedRule (r : List Char) : Prop :=
  match splitEq r with
  | none => True
  | some (k0, _) =>
    let k := toLowerList k0
    (k.contains '*' = true ∧ ¬(k = ['*'] ∨ hasSfx k ['/', '*'] = true)) ∨ 2 ≤ countStars k

/-- Bump of the diagnostics counter, for stating the soft-error claim. -/
def bumpLog (st : PState) : PState := { st with nlogs := st.nlogs + 1 }

/-- Concrete registry with one cell a, reached by registration. -/
def regA : Registry := (newVar "a".toList [] emptyRegistry).2.1

/-- The registry regA after Configure with rule a=1. -/
def regAv1 : Registry := ⟨Level.info, [⟨"a".toList, [], Level.v1⟩]⟩

/-- Concrete registry with the five cells of the testable property. -/
def regFive : Registry :=
  (newVar "c".toList []
    (newVar "a/b/d".toList []
      (newVar "a/b/c".toList []
        (newVar "a/b".toList []
          (newVar "a".toList [] emptyRegistry).2.1).2.1).2.1).2.1).2.1

/-- Concrete registry holding a cell literally named star, registered
after Configure set the default to err. -/
def regStar : Registry := (newVar "*".toList [] ⟨Level.err, []⟩).2.1

/-- A line of 128 bytes, as the make of TestRotateLogger produces. -/
def line128 : String := String.mk (List.replicate 128 'x')

/-- Concrete registry with two well-named cells at distinct levels, for
round-trip evaluation. -/
def regDemo : Registry :=
  ⟨Level.err, [⟨"a".toList, [], Level.info⟩, ⟨"a/b".toList, [], Level.v1⟩]⟩

/-! ## Helper lemmas -/

theorem rlog_eq (limit : Nat) (st : RState) (s : String) :
    rlog limit st s =
      if 0 < st.nbytes ∧ limit < st.nbytes + logPrefixSize + s.length then
        writeLine ⟨logPrefixSize + s.length, st.nextID + 1, [] :: st.files⟩ s
      else writeLine { st with nbytes := st.nbytes + logPrefixSize + s.length } s := by
  rw [rlog]
  split
  · rw [rlog]
    simp [rlRotate]
  · rfl

theorem rlogIters_eq (limit : Nat) (st : RState) (s : String) :
    rlogIters limit st s =
      if 0 < st.nbytes ∧ limit < st.nbytes + logPrefixSize + s.length then 2 else 1 := by
  rw [rlogIters]
  split
  · rw [rlogIters]
    simp [rlRotate]
  · rfl

theorem contains_append (a b : List Char) (c : Char) :
    (a ++ b).contains c = (a.contains c || b.contains c) := by
  induction a with
  | nil => simp
  | cons x xs ih =>
    simp only [List.cons_append, List.contains_cons, ih, Bool.or_assoc]

theorem splitComma_ne_nil (s : List Char) : splitComma s ≠ [] := by
  cases s with
  | nil => simp [splitComma]
  | cons c t =>
    simp only [splitComma]
    split
    · simp
    · split <;> simp

theorem splitComma_nocomma (s : List Char) (h : s.contains ',' = false) :
    splitComma s = [s] := by
  induction s with
  | nil => rfl
  | cons c t ih =>
    simp only [List.contains_cons, Bool.or_eq_false_iff, beq_eq_false_iff_ne, ne_eq] at h
    have hc : ¬c = ',' := fun hx => h.1 hx.symm
    simp only [splitComma, if_neg hc, ih h.2]

theorem splitComma_append (a b : List Char) (h : a.contains ',' = false) :
    splitComma (a ++ ',' :: b) = a :: splitComma b := by
  induction a with
  | nil => simp [splitComma]
  | cons x xs ih =>
    simp only [List.contains_cons, Bool.or_eq_false_iff, beq_eq_false_iff_ne, ne_eq] at h
    have hc : ¬x = ',' := fun hx => h.1 hx.symm
    simp only [List.cons_append, splitComma, if_neg hc, List.append_eq, ih h.2]

theorem dropTrailingEmpty_cons (x : List Char) (l : List (List Char)) (h : l ≠ []) :
    dropTrailingEmpty (x :: l) = x :: dropTrailingEmpty l := by
  cases l with
  | nil => exact absurd rfl h
  | cons y ys => rfl

theorem splitRules_append (a b : List Char) (ha : a.contains ',' = false) :
    splitRules (a ++ ',' :: b) = a :: splitRules b := by
  unfold splitRules
  rw [splitComma_append a b ha, dropTrailingEmpty_cons _ _ (splitComma_ne_nil b)]

theorem splitRules_single (a : List Char) (ha : a.contains ',' = false) (h : a ≠ []) :
    splitRules a = [a] := by
  unfold splitRules
  rw [splitComma_nocomma a ha]
  simp [dropTrailingEmpty, h]

theorem levelString_spec (l : Level) :
    (levelString l).contains ',' = false ∧ levelString l ≠ [] ∧
      parseLevelCore (toLowerList (levelString l)) = some l := by
  cases l <;> exact ⟨by decide, by decide, by decide⟩

theorem takeWhile_mid (n v : List Char) (h : n.contains '=' = false) :
    (n ++ '=' :: v).takeWhile (fun c => c ≠ '=') = n := by
  induction n with
  | nil => simp [List.takeWhile_cons]
  | cons c cs ih =>
    simp only [List.contains_cons, Bool.or_eq_false_iff, beq_eq_false_iff_ne, ne_eq] at h
    have hc : ¬c = '=' := fun hx => h.1 hx.symm
    simp only [List.cons_append, List.takeWhile_cons, ne_eq, ih h.2]
    simp [hc]

theorem dropWhile_mid (n v : List Char) (h : n.contains '=' = false) :
    (n ++ '=' :: v).dropWhile (fun c => c ≠ '=') = '=' :: v := by
  induction n with
  | nil => simp [List.dropWhile_cons]
  | cons c cs ih =>
    simp only [List.contains_cons, Bool.or_eq_false_iff, beq_eq_false_iff_ne, ne_eq] at h
    have hc : ¬c = '=' := fun hx => h.1 hx.symm
    have hd : (decide (c ≠ '=')) = true := by simp [hc]
    simp only [List.cons_append, List.dropWhile_cons, hd, if_true]
    exact ih h.2

theorem contains_mid (n v : List Char) : (n ++ '=' :: v).contains '=' = true := by
  rw [contains_append]
  simp [List.contains_cons]

theorem splitEq_mid (n v : List Char) (h : n.contains '=' = false) :
    splitEq (n ++ '=' :: v) = some (n, v) := by
  unfold splitEq
  rw [if_pos (contains_mid n v), takeWhile_mid n v h, dropWhile_mid n v h]
  rfl

theorem contains_of_mem {k : List Char} {c : Char} (h : c ∈ k) : k.contains c = true := by
  simp [List.contains, List.elem_iff, h]

theorem mem_of_contains {k : List Char} {c : Char} (h : k.contains c = true) : c ∈ k := by
  simpa [List.contains, List.elem_iff] using h

theorem hasSfx_star_contains {k : List Char} (h : hasSfx k ['/', '*'] = true) :
    k.contains '*' = true := by
  unfold hasSfx at h
  have hd : k.drop (k.length - 2) = ['/', '*'] := by simpa using h
  have hm : '*' ∈ k.drop (k.length - 2) := by rw [hd]; simp
  exact contains_of_mem (List.mem_of_mem_drop hm)

theorem parseOne_star (st : PState) (v : List Char) (L : Level)
    (hv : parseLevelCore (toLowerList v) = some L) :
    parseOneRule st ('*' :: '=' :: v) =
      Except.ok { st with pfxm := insertA ['/'] L st.pfxm } := by
  have hs : splitEq ('*' :: '=' :: v) = some (['*'], v) := splitEq_mid ['*'] v (by decide)
  unfold parseOneRule
  rw [hs]
  have hk : toLowerList ['*'] = ['*'] := by decide
  simp only [parseLevelD, hv, hk]
  simp [trimSlashR]

theorem parseOne_exact (st : PState) (n v : List Char) (L : Level)
    (hn : goodName n) (hv : parseLevelCore (toLowerList v) = some L) :
    parseOneRule st (n ++ '=' :: v) =
      Except.ok { st with exactm := insertA n L st.exactm } := by
  obtain ⟨hne, hcb, heq, hst, hlo, htr⟩ := hn
  have hs := splitEq_mid n v heq
  unfold parseOneRule
  rw [hs]
  simp only [parseLevelD, hv, hlo]
  have hnotstar : ¬(n = ['*'] ∨ hasSfx n ['/', '*'] = true) := by
    rintro (h1 | h2)
    · rw [h1] at hst; exact absurd hst (by decide)
    · rw [hasSfx_star_contains h2] at hst; exact absurd hst (by decide)
  rw [if_neg hnotstar, if_neg (by rw [hst]; decide)]
  simp [htr]

theorem lookupA_append (k : List Char) (a b : LMap) :
    lookupA k (a ++ b) = (lookupA k a).or (lookupA k b) := by
  induction a with
  | nil => simp [lookupA]
  | cons p rest ih =>
    obtain ⟨k2, v⟩ := p
    simp only [List.cons_append, lookupA]
    split
    · rfl
    · exact ih

theorem insertA_fresh (k : List Char) (v : Level) (m : LMap) (h : lookupA k m = none) :
    insertA k v m = m ++ [(k, v)] := by
  induction m with
  | nil => rfl
  | cons p rest ih =>
    obtain ⟨k2, w⟩ := p
    simp only [lookupA] at h
    simp only [insertA]
    split
    · rename_i he
      rw [if_pos he] at h
      cases h
    · rename_i he
      rw [if_neg he] at h
      rw [ih h]
      rfl

theorem ruleStr_no_comma (lv : LevelVar) (h : goodName lv.name) :
    (ruleStr lv).contains ',' = false := by
  unfold ruleStr
  rw [contains_append]
  simp only [List.contains_cons, Bool.or_eq_false_iff]
  exact ⟨h.2.1, by decide, (levelString_spec lv.level).1⟩

theorem ruleStr_ne_nil (lv : LevelVar) : ruleStr lv ≠ [] := by
  unfold ruleStr
  cases h : lv.name with
  | nil => simp
  | cons c cs => simp

theorem splitRules_pre (cells : List LevelVar) (pre : List Char)
    (hpre : pre.contains ',' = false) (hne : pre ≠ [])
    (hg : ∀ lv ∈ cells, goodName lv.name) :
    splitRules (pre ++ (cells.map fun lv => ',' :: ruleStr lv).flatten) =
      pre :: cells.map ruleStr := by
  induction cells generalizing pre with
  | nil => simpa using splitRules_single pre hpre hne
  | cons lv rest ih =>
    have hglv : goodName lv.name := hg lv (by simp)
    have step :
        pre ++ ((lv :: rest).map fun x => ',' :: ruleStr x).flatten =
          pre ++ ',' :: (ruleStr lv ++ (rest.map fun x => ',' :: ruleStr x).flatten) := by
      simp
    rw [step, splitRules_append pre _ hpre,
      ih (ruleStr lv) (ruleStr_no_comma lv hglv) (ruleStr_ne_nil lv)
        (fun x hx => hg x (by simp [hx]))]
    simp

theorem parseRules_cells (cells : List LevelVar) (st : PState)
    (hg : ∀ lv ∈ cells, goodName lv.name)
    (hnd : (cells.map (·.name)).Nodup)
    (hfresh : ∀ lv ∈ cells, lookupA lv.name st.exactm = none) :
    parseRules st (cells.map ruleStr) =
      Except.ok ⟨st.exactm ++ cells.map (fun lv => (lv.name, lv.level)), st.pfxm, st.nlogs⟩ := by
  induction cells generalizing st with
  | nil => simp [parseRules]
  | cons lv rest ih =>
    have hglv : goodName lv.name := hg lv (by simp)
    have h1 := parseOne_exact st lv.name (levelString lv.level) lv.level hglv
      (levelString_spec lv.level).2.2
    simp only [List.map_cons, parseRules, ruleStr, h1]
    have hfr : lookupA lv.name st.exactm = none := hfresh lv (by simp)
    have hrest : ∀ x ∈ rest, lookupA x.name (insertA lv.name lv.level st.exactm) = none := by
      intro x hx
      rw [insertA_fresh _ _ _ hfr, lookupA_append]
      have hx1 : lookupA x.name st.exactm = none := hfresh x (by simp [hx])
      have hx2 : x.name ≠ lv.name := by
        intro hcon
        simp only [List.map_cons, List.nodup_cons] at hnd
        exact hnd.1 (hcon ▸ List.mem_map_of_mem (·.name) hx)
      have hx3 : ¬lv.name = x.name := fun hcon => hx2 hcon.symm
      simp [hx1, lookupA, hx3]
    have hnd2 : (rest.map (·.name)).Nodup := by
      simp only [List.map_cons, List.nodup_cons] at hnd
      exact hnd.2
    rw [ih _ (fun x hx => hg x (by simp [hx])) hnd2 hrest]
    rw [insertA_fresh _ _ _ hfr]
    simp

theorem print_shape (reg : Registry) :
    printLevelVars reg =
      ('*' :: '=' :: levelString reg.root) ++
        (reg.cells.map fun lv => ',' :: ruleStr lv).flatten := rfl

theorem parseFlag_print (reg : Registry)
    (hg : ∀ lv ∈ reg.cells, goodName lv.name)
    (hnd : (reg.cells.map (·.name)).Nodup) :
    parseFlag (printLevelVars reg) =
      Except.ok ⟨reg.cells.map (fun lv => (lv.name, lv.level)), [(['/'], reg.root)], 0⟩ := by
  unfold parseFlag
  have hpre : ('*' :: '=' :: levelString reg.root).contains ',' = false := by
    simp only [List.contains_cons, Bool.or_eq_false_iff]
    exact ⟨by decide, by decide, (levelString_spec reg.root).1⟩
  rw [print_shape,
    splitRules_pre reg.cells ('*' :: '=' :: levelString reg.root) hpre (by simp) hg]
  have hstar : parseOneRule ⟨[], [], 0⟩ ('*' :: '=' :: levelString reg.root) =
      Except.ok ⟨[], [(['/'], reg.root)], 0⟩ := by
    simpa [insertA] using
      parseOne_star ⟨[], [], 0⟩ (levelString reg.root) reg.root (levelString_spec reg.root).2.2
  simp only [parseRules, hstar]
  rw [parseRules_cells reg.cells ⟨[], [(['/'], reg.root)], 0⟩ hg hnd (fun x _ => rfl)]
  simp

theorem lookup_pairs_self (cells : List LevelVar)
    (hnd : (cells.map (·.name)).Nodup) :
    ∀ lv ∈ cells, lookupA lv.name (cells.map fun x => (x.name, x.level)) = some lv.level := by
  induction cells with
  | nil => intro lv hlv; cases hlv
  | cons y rest ih =>
    intro lv hlv
    simp only [List.map_cons, List.nodup_cons] at hnd
    rcases List.mem_cons.1 hlv with hEq | hmem
    · subst hEq
      simp [lookupA]
    · have hne : ¬y.name = lv.name := by
        intro hcon
        exact hnd.1 (hcon ▸ List.mem_map_of_mem (·.name) hmem)
      simp only [List.map_cons, lookupA, if_neg hne]
      exact ih hnd.2 lv hmem

theorem exact_pass_restore (cells : List LevelVar) (em : LMap) (r : Level)
    (h : ∀ lv ∈ cells, lookupA lv.name em = some lv.level) :
    ((cells.map fun lv => { lv with level := r }).map (applyExact em)) = cells := by
  induction cells with
  | nil => rfl
  | cons y rest ih =>
    simp only [List.map_cons, List.cons.injEq]
    constructor
    · have hy := h y (by simp)
      unfold applyExact
      simp only [hy]
    · exact ih (fun lv hlv => h lv (by simp [hlv]))

theorem applyPfx_single (p : List Char) (r : Level) (lv : LevelVar) :
    applyPfx [(p, r)] [p] { lv with level := r } = { lv with level := r } := by
  have hscan : scanPfx [p] ({ lv with level := r } : LevelVar).name =
      (if pfxMatches lv.name p = true then some p else none) := by
    simp [scanPfx, scanFrom, List.get?]
  unfold applyPfx
  rw [hscan]
  by_cases hm : pfxMatches lv.name p = true
  · rw [if_pos hm]
    simp [lookupA]
  · rw [if_neg hm]

theorem setLevels_print_roundtrip (reg : Registry)
    (hg : ∀ lv ∈ reg.cells, goodName lv.name)
    (hnd : (reg.cells.map (·.name)).Nodup) :
    setLevels (printLevelVars reg) reg = Except.ok reg := by
  unfold setLevels
  rw [parseFlag_print reg hg hnd]
  simp only [lookupA, keysA, List.map_cons, List.map_nil, if_pos rfl]
  simp only [sortStrings, List.insertionSort]
  norm_num
  have h3 : ∀ a ∈ reg.cells,
      (applyExact (List.map (fun lv => (lv.name, lv.level)) reg.cells) ∘
        applyPfx [(['/'], reg.root)] [['/']] ∘
        fun lv => { name := lv.name, file := lv.file, level := reg.root }) a = id a := by
    intro a ha
    show applyExact _ (applyPfx _ _ { a with level := reg.root }) = a
    rw [applyPfx_single]
    unfold applyExact
    simp only [lookup_pairs_self reg.cells hnd a ha]
  rw [List.map_congr_left h3, List.map_id]

theorem setLevels_empty (reg : Registry) :
    setLevels [] reg =
      Except.ok ⟨reg.root, reg.cells.map fun lv => { lv with level := reg.root }⟩ := by
  unfold setLevels
  have hp : parseFlag [] = Except.ok ⟨[], [], 0⟩ := rfl
  rw [hp]
  have he : ∀ a : LevelVar, applyExact [] a = a := fun a => rfl
  simp [he, lookupA]

theorem map_reset_self (cells : List LevelVar) (r : Level)
    (h : ∀ lv ∈ cells, lv.level = r) :
    (cells.map fun lv => { lv with level := r }) = cells := by
  induction cells with
  | nil => rfl
  | cons y rest ih =>
    simp only [List.map_cons, List.cons.injEq]
    refine ⟨?_, ih fun lv hlv => h lv (by simp [hlv])⟩
    rw [← h y (by simp)]

theorem findCell_bound (name : List Char) (l : List LevelVar) :
    ∀ i, findCell name l = some i → i < l.length := by
  induction l with
  | nil => intro i h; cases h
  | cons y rest ih =>
    intro i h
    unfold findCell at h
    split at h
    · cases h
      simp
    · cases hr : findCell name rest with
      | none => rw [hr] at h; cases h
      | some j =>
        rw [hr] at h
        cases h
        have := ih j hr
        simp only [List.length_cons]
        omega

theorem findCell_append_fresh (name fn : List Char) (lev : Level) (l : List LevelVar)
    (h : findCell name l = none) :
    findCell name (l ++ [⟨name, fn, lev⟩]) = some l.length := by
  induction l with
  | nil => simp [findCell]
  | cons y rest ih =>
    simp only [findCell] at h ⊢
    split at h
    · cases h
    · rename_i hne
      rw [if_neg hne, List.append_eq]
      have hr : findCell name rest = none := by
        cases hq : findCell name rest with
        | none => rfl
        | some j => rw [hq] at h; cases h
      rw [ih hr]
      simp

theorem setAt_get (l : List LevelVar) :
    ∀ i, i < l.length → ∀ v, (setAt l i v).get? i = (l.get? i).map fun lv => { lv with level := v } := by
  induction l with
  | nil => intro i h; simp at h
  | cons y rest ih =>
    intro i h v
    cases i with
    | zero => rfl
    | succ j =>
      simp only [setAt, List.get?]
      exact ih j (by simpa using h) v

theorem leStr_total : ∀ a b : List Char, leStr a b = true ∨ leStr b a = true
  | [], _ => Or.inl rfl
  | _ :: _, [] => Or.inr rfl
  | a :: as, b :: bs => by
    unfold leStr
    rcases Nat.lt_trichotomy a.toNat b.toNat with h | h | h
    · left
      rw [if_pos h]
    · rw [if_neg (by omega), if_neg (by omega), if_neg (by omega), if_neg (by omega)]
      exact leStr_total as bs
    · right
      rw [if_pos h]

theorem leStr_trans : ∀ a b c : List Char,
    leStr a b = true → leStr b c = true → leStr a c = true
  | [], _, _, _, _ => rfl
  | _ :: _, [], _, hab, _ => by cases hab
  | _ :: _, _ :: _, [], _, hbc => by cases hbc
  | a :: as, b :: bs, c :: cs, hab, hbc => by
    unfold leStr at hab hbc ⊢
    by_cases h1 : a.toNat < b.toNat <;> by_cases h2 : b.toNat < c.toNat
    · rw [if_pos (by omega)]
    · rw [if_neg h2] at hbc
      by_cases h3 : c.toNat < b.toNat
      · rw [if_pos h3] at hbc
        cases hbc
      · rw [if_neg h3] at hbc
        rw [if_pos (by omega)]
    · rw [if_neg h1] at hab
      by_cases h4 : b.toNat < a.toNat
      · rw [if_pos h4] at hab
        cases hab
      · rw [if_neg h4] at hab
        rw [if_pos (by omega)]
    · rw [if_neg h1] at hab
      by_cases h4 : b.toNat < a.toNat
      · rw [if_pos h4] at hab
        cases hab
      · rw [if_neg h4] at hab
        rw [if_neg h2] at hbc
        by_cases h3 : c.toNat < b.toNat
        · rw [if_pos h3] at hbc
          cases hbc
        · rw [if_neg h3] at hbc
          rw [if_neg (by omega), if_neg (by omega)]
          exact leStr_trans as bs cs hab hbc

instance : IsTotal (List Char) (fun a b => leStr a b = true) := ⟨leStr_total⟩

instance : IsTrans (List Char) (fun a b => leStr a b = true) := ⟨leStr_trans⟩

theorem scanFrom_take (ps : List (List Char)) (n : List Char) :
    ∀ i, i ≤ ps.length →
      scanFrom ps n i = ((ps.take i).reverse).find? (fun k => pfxMatches n k)
  | 0, _ => by simp [scanFrom]
  | i + 1, h => by
    have hi : i < ps.length := h
    have hk : ps.get? i = some (ps.get ⟨i, hi⟩) := List.get?_eq_get hi
    unfold scanFrom
    rw [hk]
    have ht : ps.take (i + 1) = ps.take i ++ [ps.get ⟨i, hi⟩] := by
      rw [List.take_succ, ← List.get?_eq_getElem? ps i, hk]
      rfl
    rw [ht, List.reverse_append]
    simp only [List.reverse_singleton, List.singleton_append]
    by_cases hm : pfxMatches n (ps.get ⟨i, hi⟩) = true
    · rw [if_pos hm, List.find?_cons_of_pos _ hm]
    · rw [if_neg hm, List.find?_cons_of_neg _ (by simpa using hm),
        scanFrom_take ps n i (Nat.le_of_lt hi)]

theorem scanPfx_reverse_find (ps : List (List Char)) (n : List Char) :
    scanPfx ps n = (ps.reverse).find? (fun k => pfxMatches n k) := by
  unfold scanPfx
  rw [scanFrom_take ps n ps.length (Nat.le_refl _), List.take_length]

theorem contains_star_iff (k : List Char) : k.contains '*' = true ↔ 1 ≤ countStars k := by
  induction k with
  | nil => simp [countStars]
  | cons c rest ih =>
    unfold countStars at ih ⊢
    by_cases hc : c = '*'
    · subst hc
      simp [List.contains_cons, List.filter_cons]
    · have hb : (('*' : Char) == c) = false := by
        simp only [beq_eq_false_iff_ne, ne_eq]
        exact fun hcon => hc hcon.symm
      have hpc : (decide (c = '*')) = false := by simp [hc]
      rw [List.contains_cons, hb, List.filter_cons, hpc]
      simpa using ih

theorem countStars_concat (d : List Char) :
    countStars (d ++ ['*']) = countStars d + 1 := by
  unfold countStars
  rw [List.filter_append]
  simp

theorem hasSfx_concat {k : List Char} (h : hasSfx k ['/', '*'] = true) :
    k = (k.dropLast ++ ['*']) ∧ k.dropLast = (k.take (k.length - 2) ++ ['/']) := by
  unfold hasSfx at h
  have hd : k.drop (k.length - 2) = ['/', '*'] := by simpa using h
  have hsplit : k = k.take (k.length - 2) ++ ['/', '*'] := by
    conv_lhs => rw [← List.take_append_drop (k.length - 2) k]
    rw [hd]
  have h2 : k = (k.take (k.length - 2) ++ ['/']) ++ ['*'] := by
    rw [hsplit]
    simp
  have h3 : k.dropLast = k.take (k.length - 2) ++ ['/'] := by
    conv_lhs => rw [h2]
    exact List.dropLast_concat
  exact ⟨by rw [h3, ← h2], h3⟩

theorem parseOne_error_iff (st : PState) (r : List Char) :
    MalformedRule r ↔ ∃ e, parseOneRule st r = Except.error e := by
  unfold MalformedRule parseOneRule
  cases hsp : splitEq r with
  | none =>
    exact ⟨fun _ => ⟨PErr.noLevel, rfl⟩, fun _ => trivial⟩
  | some kv =>
    obtain ⟨k0, v⟩ := kv
    dsimp only
    by_cases hs : toLowerList k0 = ['*'] ∨ hasSfx (toLowerList k0) ['/', '*'] = true
    · rw [if_pos hs]
      have hdecomp : toLowerList k0 = (toLowerList k0).dropLast ++ ['*'] := by
        rcases hs with h1 | h2
        · rw [h1]
          rfl
        · exact (hasSfx_concat h2).1
      have hcount : 2 ≤ countStars (toLowerList k0) ↔
          ((toLowerList k0).dropLast).contains '*' = true := by
        conv_lhs => rw [hdecomp]
        rw [countStars_concat, contains_star_iff]
        omega
      constructor
      · intro hm
        rcases hm with ⟨_, hno⟩ | h2
        · exact absurd hs hno
        · exact ⟨PErr.multiStar, by rw [if_pos (hcount.1 h2)]⟩
      · rintro ⟨e, he⟩
        by_cases hd : ((toLowerList k0).dropLast).contains '*' = true
        · exact Or.inr (hcount.2 hd)
        · rw [if_neg hd] at he
          cases he
    · rw [if_neg hs]
      by_cases hcon : (toLowerList k0).contains '*' = true
      · rw [if_pos hcon]
        exact ⟨fun _ => ⟨PErr.starMiddle, rfl⟩, fun _ => Or.inl ⟨hcon, hs⟩⟩
      · rw [if_neg hcon]
        constructor
        · intro hm
          rcases hm with ⟨hc, _⟩ | h2
          · exact absurd hc hcon
          · exact absurd ((contains_star_iff _).2 (by omega)) hcon
        · rintro ⟨e, he⟩
          cases he

theorem parseRules_error_iff (rs : List (List Char)) : ∀ st : PState,
    ((∃ r ∈ rs, MalformedRule r) ↔ ∃ e, parseRules st rs = Except.error e) := by
  induction rs with
  | nil =>
    intro st
    simp [parseRules]
  | cons r rest ih =>
    intro st
    unfold parseRules
    cases hr : parseOneRule st r with
    | error e =>
      have hm : MalformedRule r := (parseOne_error_iff st r).2 ⟨e, hr⟩
      exact ⟨fun _ => ⟨e, rfl⟩, fun _ => ⟨r, by simp, hm⟩⟩
    | ok st2 =>
      have hnm : ¬MalformedRule r := fun hm => by
        obtain ⟨e, he⟩ := (parseOne_error_iff st r).1 hm
        rw [hr] at he
        cases he
      constructor
      · rintro ⟨x, hx, hmx⟩
        rcases List.mem_cons.1 hx with hEq | hmem
        · exact absurd (hEq ▸ hmx) hnm
        · exact (ih st2).1 ⟨x, hmem, hmx⟩
      · intro he
        obtain ⟨x, hmem, hmx⟩ := (ih st2).2 he
        exact ⟨x, by simp [hmem], hmx⟩

theorem parseOne_bump (st : PState) (r : List Char) :
    parseOneRule (bumpLog st) r = Except.map bumpLog (parseOneRule st r) := by
  unfold parseOneRule
  cases hsp : splitEq r with
  | none => rfl
  | some kv =>
    obtain ⟨k0, v⟩ := kv
    dsimp only
    by_cases hs : toLowerList k0 = ['*'] ∨ hasSfx (toLowerList k0) ['/', '*'] = true
    · rw [if_pos hs, if_pos hs]
      by_cases hm : ((toLowerList k0).dropLast).contains '*' = true
      · rw [if_pos hm, if_pos hm]
        rfl
      · rw [if_neg hm, if_neg hm]
        simp [bumpLog, Except.map, Nat.add_right_comm]
    · rw [if_neg hs, if_neg hs]
      by_cases hc : (toLowerList k0).contains '*' = true
      · rw [if_pos hc, if_pos hc]
        rfl
      · rw [if_neg hc, if_neg hc]
        simp [bumpLog, Except.map, Nat.add_right_comm]

theorem parseRules_bump (rs : List (List Char)) : ∀ st : PState,
    parseRules (bumpLog st) rs = Except.map bumpLog (parseRules st rs) := by
  induction rs with
  | nil => intro st; rfl
  | cons r rest ih =>
    intro st
    unfold parseRules
    rw [parseOne_bump st r]
    cases parseOneRule st r with
    | error e => rfl
    | ok st2 => exact ih st2

theorem parseOne_token_info (st : PState) (k t : List Char)
    (hk : k.contains '=' = false) (ht : parseLevelCore (toLowerList t) = none) :
    parseOneRule st (k ++ '=' :: t) =
      Except.map bumpLog (parseOneRule st (k ++ '=' :: ['i'])) := by
  unfold parseOneRule
  rw [splitEq_mid k t hk, splitEq_mid k ['i'] hk]
  dsimp only
  have h1 : parseLevelD t = (Level.info, 1) := by
    unfold parseLevelD
    rw [ht]
  have h2 : parseLevelD ['i'] = (Level.info, 0) := rfl
  rw [h1, h2]
  by_cases hs : toLowerList k = ['*'] ∨ hasSfx (toLowerList k) ['/', '*'] = true
  · rw [if_pos hs, if_pos hs]
    by_cases hm : ((toLowerList k).dropLast).contains '*' = true
    · rw [if_pos hm, if_pos hm]
      rfl
    · rw [if_neg hm, if_neg hm]
      simp [bumpLog, Except.map]
  · rw [if_neg hs, if_neg hs]
    by_cases hc : (toLowerList k).contains '*' = true
    · rw [if_pos hc, if_pos hc]
      rfl
    · rw [if_neg hc, if_neg hc]
      simp [bumpLog, Except.map]

theorem parseRules_subst (rs1 : List (List Char)) : ∀ (st : PState) (rs2 : List (List Char))
    (k t : List Char), k.contains '=' = false → parseLevelCore (toLowerList t) = none →
    parseRules st (rs1 ++ (k ++ '=' :: t) :: rs2) =
      Except.map bumpLog (parseRules st (rs1 ++ (k ++ '=' :: ['i']) :: rs2)) := by
  induction rs1 with
  | nil =>
    intro st rs2 k t hk ht
    simp only [List.nil_append]
    unfold parseRules
    rw [parseOne_token_info st k t hk ht]
    cases parseOneRule st (k ++ '=' :: ['i']) with
    | error e => rfl
    | ok st2 => exact parseRules_bump rs2 st2
  | cons r rest ih =>
    intro st rs2 k t hk ht
    simp only [List.cons_append]
    unfold parseRules
    cases parseOneRule st r with
    | error e => rfl
    | ok st2 => exact ih st2 rs2 k t hk ht

theorem hasPfx_iff (n k : List Char) : hasPfx n k = true ↔ k <+: n := by
  unfold hasPfx
  rw [beq_iff_eq]
  constructor
  · intro h
    refine ⟨n.drop k.length, ?_⟩
    conv_rhs => rw [← List.take_append_drop k.length n, h]
  · rintro ⟨t, rfl⟩
    exact List.take_left k t

/-! ## Claim theorems -/

/-- C1, counterexample: Configure with the empty rule string is not a
no-op on levels.  In the reachable state regAv1 (register a, then
Configure a=1, so a is at v1 and the default at info), Configure with
the empty string resets cell a to info. -/
theorem c1_counterexample :
    setLevels ("a=1".toList) regA = Except.ok regAv1
    ∧ regAv1.cells.map (fun lv => lv.level) = [Level.v1]
    ∧ setLevels [] regAv1 = Except.ok ⟨Level.info, [⟨"a".toList, [], Level.info⟩]⟩
    ∧ (⟨Level.info, [⟨"a".toList, [], Level.info⟩]⟩ : Registry) ≠ regAv1 := by
  refine ⟨by decide, by decide, by decide, by decide⟩

/-- C1, amended: Configure with the empty rule string keeps the root
level and resets every other cell to the root level; it is therefore a
no-op exactly on states whose cells all sit at the default already. -/
theorem c1_empty_config_noop (reg : Registry)
    (h : ∀ lv ∈ reg.cells, lv.level = reg.root) :
    setLevels [] reg = Except.ok reg := by
  rw [setLevels_empty, map_reset_self reg.cells reg.root h]

/-- Witness for c1_empty_config_noop at a concrete registry. -/
theorem c1_empty_config_noop_witness :
    (∀ lv ∈ regA.cells, lv.level = regA.root)
    ∧ setLevels [] regA = Except.ok regA :=
  ⟨by decide, c1_empty_config_noop regA (by decide)⟩

/-- C2: with cells a, a/b, a/b/c, a/b/d, c registered, the rule string
star=e,a=i,a/b=v1,a/b/c=v2 resolves a to info, a/b to v1, a/b/c to v2,
a/b/d to err (the default, no rule matching it) and c to err. -/
theorem c2_resolution_example :
    setLevels ("*=e,a=i,a/b=v1,a/b/c=v2".toList) regFive =
      Except.ok
        ⟨Level.err,
          [⟨"a".toList, [], Level.info⟩, ⟨"a/b".toList, [], Level.v1⟩,
           ⟨"a/b/c".toList, [], Level.v2⟩, ⟨"a/b/d".toList, [], Level.err⟩,
           ⟨"c".toList, [], Level.err⟩]⟩ := by
  decide

/-- C3: the prefix scan of setLevels visits the normalized prefix keys
in descending lexicographic order (the reverse of the ascending sort is
a permutation of the keys, sorted descending), and a cell takes the
level of the first prefix matching its name, the scan stopping there. -/
theorem c3_descending_pfx_scan (pm : LMap) (lv : LevelVar) :
    ((sortStrings (keysA pm)).reverse).Perm (keysA pm)
    ∧ ((sortStrings (keysA pm)).reverse).Pairwise (fun a b => leStr b a = true)
    ∧ applyPfx pm (sortStrings (keysA pm)) lv =
        (match ((sortStrings (keysA pm)).reverse).find? (fun k => pfxMatches lv.name k) with
          | some k => { lv with level := (lookupA k pm).getD Level.info }
          | none => lv) := by
  refine ⟨?_, ?_, ?_⟩
  · exact (List.reverse_perm _).trans (List.perm_insertionSort _ _)
  · rw [List.pairwise_reverse]
    exact List.sorted_insertionSort (fun a b => leStr a b = true) (keysA pm)
  · unfold applyPfx
    rw [scanPfx_reverse_find]

/-- C4: Configure fails with an error, surfaced to the caller, exactly
when the configuration string contains a malformed rule: one with no
equals sign, a wildcard not at a trailing slash-star or bare star, or
multiple wildcards. -/
theorem c4_malformed_error (s : List Char) :
    (∃ r ∈ splitRules s, MalformedRule r) ↔ ∃ e, parseFlag s = Except.error e :=
  parseRules_error_iff (splitRules s) ⟨[], [], 0⟩

/-- C5, counterexample: Export followed by Configure of the exported
string does not reproduce the resolved levels in every reachable state.
After Configure star=e and then registering a cell literally named
star, the export reads star=err,star=info, whose second rule re-parses
as a bare wildcard and drags the default from err to info. -/
theorem c5_counterexample :
    setLevels ("*=e".toList) emptyRegistry = Except.ok ⟨Level.err, []⟩
    ∧ (newVar "*".toList [] ⟨Level.err, []⟩).2.1 = regStar
    ∧ printLevelVars regStar = "*=err,*=info".toList
    ∧ setLevels (printLevelVars regStar) regStar =
        Except.ok ⟨Level.info, [⟨"*".toList, [], Level.info⟩]⟩
    ∧ (⟨Level.info, [⟨"*".toList, [], Level.info⟩]⟩ : Registry) ≠ regStar := by
  refine ⟨by decide, by decide, by decide, by decide, by decide⟩

/-- C5, amended: the Export-Configure round trip reproduces the exact
resolved state whenever every registered name is already in normalized
form: nonempty, free of comma, equals and wildcard characters, fixed by
lowercasing, with no trailing slash, and names are pairwise distinct
(which registration guarantees). -/
theorem c5_export_roundtrip (reg : Registry)
    (hg : ∀ lv ∈ reg.cells, goodName lv.name)
    (hnd : (reg.cells.map (·.name)).Nodup) :
    setLevels (printLevelVars reg) reg = Except.ok reg :=
  setLevels_print_roundtrip reg hg hnd

/-- Witness for c5_export_roundtrip at a concrete registry. -/
theorem c5_export_roundtrip_witness :
    ((∀ lv ∈ regDemo.cells, goodName lv.name) ∧ (regDemo.cells.map (·.name)).Nodup)
    ∧ setLevels (printLevelVars regDemo) regDemo = Except.ok regDemo :=
  ⟨⟨by decide, by decide⟩, c5_export_roundtrip regDemo (by decide) (by decide)⟩

/-- C6: registration is idempotent.  Registering a name a second time
logs the duplicate diagnostic, leaves the registry unchanged, and
returns the same handle as the first registration, so a level stored
through the first handle is read back through the second. -/
theorem c6_register_idempotent (reg : Registry) (name fn fn2 : List Char) (l : Level)
    (hne : name ≠ []) :
    (newVar name fn2 (newVar name fn reg).2.1).2.1 = (newVar name fn reg).2.1
    ∧ (newVar name fn2 (newVar name fn reg).2.1).1 = (newVar name fn reg).1
    ∧ (newVar name fn2 (newVar name fn reg).2.1).2.2 = RegLog.dupName
    ∧ getLevelAt
        (setLevelAt (newVar name fn reg).2.1 (newVar name fn reg).1 l)
        (newVar name fn2 (newVar name fn reg).2.1).1 = some l := by
  cases hf : findCell name reg.cells with
  | some i =>
    simp only [newVar, if_neg hne, hf, true_and]
    have hb := findCell_bound name reg.cells i hf
    simp only [setLevelAt, getLevelAt]
    rw [setAt_get reg.cells i hb l, List.get?_eq_get hb]
    rfl
  | none =>
    have hf2 := findCell_append_fresh name fn Level.info reg.cells hf
    simp only [newVar, if_neg hne, hf, hf2, true_and]
    have hb : reg.cells.length < (reg.cells ++ [(⟨name, fn, Level.info⟩ : LevelVar)]).length := by
      simp
    simp only [setLevelAt, getLevelAt]
    rw [setAt_get _ reg.cells.length hb l, List.get?_concat_length]
    rfl

/-- Witness for c6_register_idempotent at a concrete input. -/
theorem c6_register_idempotent_witness :
    ("a".toList ≠ [])
    ∧ ((newVar "a".toList [] (newVar "a".toList [] emptyRegistry).2.1).2.1 =
        (newVar "a".toList [] emptyRegistry).2.1
      ∧ (newVar "a".toList [] (newVar "a".toList [] emptyRegistry).2.1).1 =
        (newVar "a".toList [] emptyRegistry).1
      ∧ (newVar "a".toList [] (newVar "a".toList [] emptyRegistry).2.1).2.2 = RegLog.dupName
      ∧ getLevelAt
          (setLevelAt (newVar "a".toList [] emptyRegistry).2.1
            (newVar "a".toList [] emptyRegistry).1 Level.v1)
          (newVar "a".toList [] (newVar "a".toList [] emptyRegistry).2.1).1 = some Level.v1) :=
  ⟨by decide, c6_register_idempotent emptyRegistry "a".toList [] [] Level.v1 (by decide)⟩

set_option maxRecDepth 4000 in
/-- C7: Log rotates exactly when the byte counter is positive and the
counter plus the record size (the 50-byte overhead plus the line length)
exceeds the limit; rotation resets the counter to zero and advances the
sequence number by exactly one before the line is written.  Concretely,
with limit 180, writing a then bc stays in one file, and a 128-byte
line followed by def ends with exactly three files. -/
theorem c7_rotation_condition :
    (∀ (limit : Nat) (st : RState) (s : String),
      rlog limit st s =
        if 0 < st.nbytes ∧ limit < st.nbytes + logPrefixSize + s.length then
          writeLine ⟨logPrefixSize + s.length, st.nextID + 1, [] :: st.files⟩ s
        else writeLine { st with nbytes := st.nbytes + logPrefixSize + s.length } s)
    ∧ (∀ st : RState, (rlRotate st).nbytes = 0 ∧ (rlRotate st).nextID = st.nextID + 1)
    ∧ (rlog 180 (rlog 180 newRotateLogger "a") "bc").files.length = 1
    ∧ (rlog 180 (rlog 180 (rlog 180 (rlog 180 newRotateLogger "a") "bc") line128)
        "def").files.length = 3 := by
  have h1 : rlog 180 newRotateLogger "a" = ⟨51, 1, [["a"]]⟩ := by
    rw [rlog_eq]
    decide
  have h2 : rlog 180 (⟨51, 1, [["a"]]⟩ : RState) "bc" = ⟨103, 1, [["a", "bc"]]⟩ := by
    rw [rlog_eq]
    decide
  refine ⟨rlog_eq, fun st => ⟨rfl, rfl⟩, by rw [h1, h2]; rfl, ?_⟩
  have h3 : rlog 180 (⟨103, 1, [["a", "bc"]]⟩ : RState) line128 =
      ⟨178, 2, [[line128], ["a", "bc"]]⟩ := by
    rw [rlog_eq]
    decide
  have h4 : rlog 180 (⟨178, 2, [[line128], ["a", "bc"]]⟩ : RState) "def" =
      ⟨53, 3, [["def"], [line128], ["a", "bc"]]⟩ := by
    rw [rlog_eq]
    decide
  rw [h1, h2, h3, h4]
  rfl

/-- C8: a rule whose level token is unrecognized is a soft error: the
token parses to info with one diagnostic logged, and parsing a rule list
containing such a rule equals parsing the same list with the token
replaced by i, except for the one extra diagnostic - the remaining
rules are still processed. -/
theorem c8_soft_error_token (st : PState) (rs1 rs2 : List (List Char)) (k t : List Char)
    (hk : k.contains '=' = false) (ht : parseLevelCore (toLowerList t) = none) :
    parseLevelD t = (Level.info, 1)
    ∧ parseRules st (rs1 ++ (k ++ '=' :: t) :: rs2) =
        Except.map bumpLog (parseRules st (rs1 ++ (k ++ '=' :: ['i']) :: rs2)) := by
  constructor
  · unfold parseLevelD
    rw [ht]
  · exact parseRules_subst rs1 st rs2 k t hk ht

/-- Witness for c8_soft_error_token at a concrete input. -/
theorem c8_soft_error_token_witness :
    (("b".toList.contains '=' = false)
      ∧ parseLevelCore (toLowerList "zz".toList) = none)
    ∧ (parseLevelD "zz".toList = (Level.info, 1)
      ∧ parseRules ⟨[], [], 0⟩
          (["a=e".toList] ++ ("b".toList ++ '=' :: "zz".toList) :: ["c=1".toList]) =
        Except.map bumpLog
          (parseRules ⟨[], [], 0⟩
            (["a=e".toList] ++ ("b".toList ++ '=' :: ['i']) :: ["c=1".toList]))) :=
  ⟨⟨by decide, by decide⟩,
    c8_soft_error_token ⟨[], [], 0⟩ ["a=e".toList] ["c=1".toList] "b".toList "zz".toList
      (by decide) (by decide)⟩

/-- C9: during resolution a normalized prefix key k, which ends in a
slash, matches a cell name exactly when the name equals k without its
trailing slash, or k is a string prefix of the name; so a rule p
slash-star also applies to the cell named exactly p. -/
theorem c9_pfx_match_boundary (n k : List Char) (hk : k.getLast? = some '/') :
    pfxMatches n k = true ↔ (n = k.dropLast ∨ k <+: n) := by
  unfold pfxMatches
  rw [Bool.or_eq_true, beq_iff_eq, hasPfx_iff]

/-- Witness for c9_pfx_match_boundary: the key a-slash matches the
cell named exactly a. -/
theorem c9_pfx_match_boundary_witness :
    ("a/".toList.getLast? = some '/')
    ∧ (pfxMatches "a".toList "a/".toList = true ↔
        ("a".toList = "a/".toList.dropLast ∨ "a/".toList <+: "a".toList)) :=
  ⟨by decide, c9_pfx_match_boundary "a".toList "a/".toList (by decide)⟩

/-- C10: every Log call terminates after at most two loop iterations
and at most one rotation; once a rotation has reset the byte counter,
the size check is skipped, so even an oversized line is written to the
fresh file without a further rotation. -/
theorem c10_log_terminates (limit : Nat) (st : RState) (s : String) :
    rlogIters limit st s ≤ 2
    ∧ (rlog limit st s).nextID ≤ st.nextID + 1
    ∧ rlogIters limit (rlRotate st) s = 1 := by
  refine ⟨?_, ?_, ?_⟩
  · rw [rlogIters_eq]
    split
    · exact Nat.le_refl 2
    · omega
  · rw [rlog_eq]
    split
    · simp [writeLine]
    · simp [writeLine]
  · rw [rlogIters_eq]
    simp [rlRotate]
